import Mathlib

/-!
Shallow embedding of `src/app/frontend/src/components/Answer/AnswerParser.tsx`
(the `parseAnswerToHtml` citation parser) over `List Char`, together with
theorems settling the specification claims about it.

JavaScript strings are modelled as `List Char`; `undefined`-producing array
indexing is modelled with `Option`; the mutable `foundCitationsInText` array
is modelled by explicit state passing.
-/

/-- JS whitespace (the set matched by `\s`, `String.prototype.trim`):
WhiteSpace ∪ LineTerminator code points. -/
def isJsSpace (c : Char) : Bool :=
  c = ' ' || c = '\t' || c = '\n' || c = '\r' ||
  c = '\x0b' || c = '\x0c' || c = ' ' || c = ' ' ||
  (' ' ≤ c && c ≤ ' ') || c = ' ' || c = ' ' ||
  c = ' ' || c = ' ' || c = '　' || c = '﻿'

/-- JS LineTerminator characters (excluded by `.` in a regex without the `s` flag). -/
def isLineTerm (c : Char) : Bool :=
  c = '\n' || c = '\r' || c = ' ' || c = ' '

/-- JS `\w`: ASCII letters, digits and underscore. -/
def isWordChar (c : Char) : Bool :=
  ('a' ≤ c && c ≤ 'z') || ('A' ≤ c && c ≤ 'Z') || ('0' ≤ c && c ≤ '9') || c = '_'

/-- `s.startsWith(candidate)` for JS strings: `cand` is an initial segment of `s`. -/
def jsStartsWith : List Char → List Char → Bool
  | _, [] => true
  | [], _ :: _ => false
  | a :: s, b :: cand => a = b && jsStartsWith s cand

/-- `String.prototype.trim()`: drop JS whitespace at both ends. -/
def jsTrim (cs : List Char) : List Char :=
  ((cs.dropWhile isJsSpace).reverse.dropWhile isJsSpace).reverse

/-- Matcher for the regex tail after `\w` consumption has started: the remaining
characters must satisfy `\w*` followed by an optional `#\S*`, ending the string.
(The disjunction realizes the regex engine's backtracking choice points.) -/
def afterDotAux : List Char → Bool
  | [] => true
  | c :: rest =>
      (isWordChar c && afterDotAux rest) ||
      (c = '#' && rest.all (fun d => !isJsSpace d))

/-- Matcher for `\w{1,}(?:#\S*)?$` applied to the rest of the string after the
literal dot. -/
def afterDot : List Char → Bool
  | [] => false
  | c :: rest => isWordChar c && afterDotAux rest

/-- `/.+\.\w{1,}(?:#\S*)?$/.test(candidate)`: there is a position of the literal
`.` preceded by at least one non-line-terminator character (the `.+`, whose
shortest witness is the single character right before the dot) such that the
rest of the string matches `\w{1,}(?:#\S*)?` up to the end. -/
def testCitationRegex : List Char → Bool
  | [] => false
  | a :: rest =>
      (match rest with
       | '.' :: tail => !isLineTerm a && afterDot tail
       | _ => false) || testCitationRegex rest

/-- A JS value appearing as an entry of a data-points array: a string, or some
non-string value (a number, `null`, ...), which `typeof v === "string"` rejects. -/
inductive JsVal where
  | str : List Char → JsVal
  | num : Int → JsVal
  | nullv : JsVal
  deriving DecidableEq

/-- The predicate of the `findIndex` callback in `findCitationIndexInDataPoints`:
`typeof dataPoint === "string" && dataPoint.startsWith(citationCandidate)`. -/
def dpMatches (v : JsVal) (cand : List Char) : Bool :=
  match v with
  | JsVal.str s => jsStartsWith s cand
  | JsVal.num _ => false
  | JsVal.nullv => false

/-- The possible shapes of `context.data_points` that the source's shape
sniffing distinguishes: a flat array, an object whose `.text` is an array, an
object whose `.text` is not an array but whose `.sources` is, or anything
else (neither shape recognized - `null`, a number, an object without those
array properties, ...). -/
inductive JsDataPoints where
  | arr : List JsVal → JsDataPoints
  | objText : List JsVal → JsDataPoints
  | objSources : List JsVal → JsDataPoints
  | invalid : JsDataPoints
  deriving DecidableEq

/-- The if/else-if chain at the top of `findCitationIndexInDataPoints` that
selects `dataPointsArray` (array itself, `.text`, `.sources`, or failure). -/
def resolveDataPointsArray : JsDataPoints → Option (List JsVal)
  | JsDataPoints.arr xs => some xs
  | JsDataPoints.objText xs => some xs
  | JsDataPoints.objSources xs => some xs
  | JsDataPoints.invalid => none

/-- `Array.prototype.findIndex` (as an `Option Nat`) with the `dpMatches`
callback: first index whose entry is a string starting with the candidate. -/
def findMatchIdx : List JsVal → List Char → Option Nat
  | [], _ => none
  | v :: rest, cand =>
      if dpMatches v cand then some 0
      else (findMatchIdx rest cand).map (· + 1)

/-- `findCitationIndexInDataPoints(contextDataPoints, citationCandidate)`:
resolve the array shape (returning `-1` on failure, where the source logs
`console.error`), then `findIndex` (which yields `-1` when nothing matches). -/
def findCitationIndexInDataPoints (dps : JsDataPoints) (cand : List Char) : Int :=
  match resolveDataPointsArray dps with
  | none => -1
  | some xs =>
      match findMatchIdx xs cand with
      | some i => Int.ofNat i
      | none => -1

/-- An element of the `foundCitationsInText` array: `{ identifier, url }`. -/
structure FoundCitation where
  identifier : List Char
  url : List Char
  deriving DecidableEq

/-- The identifiers of a found-citations list (`.map(c => c.identifier)`). -/
def keys (found : List FoundCitation) : List (List Char) :=
  found.map FoundCitation.identifier

/-- Number of occurrences of an identifier in a list of identifiers (used to
state that a deduplicated list mentions an identifier exactly once). -/
def countOccurrences (x : List Char) : List (List Char) → Nat
  | [] => 0
  | y :: rest => (if y = x then 1 else 0) + countOccurrences x rest

/-- Index of the first entry with the given identifier. This models the pair
`foundCitationsInText.find(c => c.identifier === cand)` followed by
`foundCitationsInText.indexOf(existingCitation)`: `indexOf` compares by
object reference, and the reference returned by `find` sits at the first
index whose identifier matches, which is what this function computes. -/
def firstKeyIdx : List FoundCitation → List Char → Option Nat
  | [], _ => none
  | fc :: rest, cand =>
      if fc.identifier = cand then some 0
      else (firstKeyIdx rest cand).map (· + 1)

/-- React's HTML escaping of text and attribute values
(`&`, `<`, `>`, `"` and the apostrophe, U+0027). -/
def escapeHtmlChar (c : Char) : List Char :=
  if c = '&' then "&amp;".toList
  else if c = '<' then "&lt;".toList
  else if c = '>' then "&gt;".toList
  else if c = '"' then "&quot;".toList
  else if c = Char.ofNat 39 then "&#x27;".toList
  else [c]

/-- Escape a whole string for HTML output. -/
def escapeHtml : List Char → List Char
  | [] => []
  | c :: rest => escapeHtmlChar c ++ escapeHtml rest

/-- Decimal rendering of the displayed citation number. -/
def natChars (n : Nat) : List Char := (Nat.repr n).toList

/-- `renderToStaticMarkup(<sup className="citationNumber" title={cand}>{n}</sup>)`:
the static markup React produces for the superscript citation marker. -/
def renderSup (title : List Char) (n : Nat) : List Char :=
  "<sup class=\"citationNumber\" title=\"".toList ++ escapeHtml title ++
  "\">".toList ++ natChars n ++ "</sup>".toList

/-- Backward scan of the streaming-truncation loop, performed on the REVERSED
answer: the number of characters to drop from the end of the answer.  The scan
stops at the first `]` (drop nothing) or `[` (drop that character and
everything after it, i.e. `position + 1` characters of the reversed list); if
neither occurs, nothing is dropped. -/
def truncDrop : List Char → Nat
  | [] => 0
  | c :: rest =>
      if c = ']' then 0
      else if c = '[' then 1
      else
        match truncDrop rest with
        | 0 => 0
        | d + 1 => d + 2

/-- The streaming truncation: `parsedAnswer.substring(0, lastIndex)` where
`lastIndex` results from the backward bracket scan. -/
def streamTrunc (cs : List Char) : List Char :=
  cs.take (cs.length - truncDrop cs.reverse)

/-- One-pass tokenizer equivalent to `parsedAnswer.split(/\[([^\]]+)\]/g)`.
The first component of the state (`none` / `some buf`) records whether the
scan is inside a potential `[...]` match (with `buf` the reversed interior
read so far, never containing `]`); `acc` is the reversed plain text of the
current segment.  A match is `[`, one or more non-`]` characters, `]` - the
leftmost such match is found first, and its interior is the run of characters
between a `[` and the next `]` (JS's greedy `[^\]]+` behaves identically).
The result alternates text segments (even positions) and captured interiors
(odd positions), exactly like the JS split with a capture group. -/
def splitGo : List Char → Option (List Char) → List Char → List (List Char)
  | [], none, acc => [acc.reverse]
  | [], some buf, acc => [acc.reverse ++ '[' :: buf.reverse]
  | c :: rest, none, acc =>
      if c = '[' then splitGo rest (some []) acc
      else splitGo rest none (c :: acc)
  | c :: rest, some buf, acc =>
      if c = ']' then
        match buf with
        | [] => splitGo rest none (']' :: '[' :: acc)
        | _ :: _ => acc.reverse :: buf.reverse :: splitGo rest none []
      else splitGo rest (some (c :: buf)) acc

/-- `parsedAnswer.split(/\[([^\]]+)\]/g)`. -/
def splitParts (cs : List Char) : List (List Char) :=
  splitGo cs none []

/-- The body of the `parts.map` callback for an odd index (a potential
citation identifier), returning the emitted fragment and the new state of
`foundCitationsInText`. -/
def processCandidate (dps : JsDataPoints) (urls : List (List Char))
    (found : List FoundCitation) (cand : List Char) :
    List Char × List FoundCitation :=
  let dataPointIndex := findCitationIndexInDataPoints dps cand
  let looksLikeCitation := testCitationRegex cand
  if dataPointIndex == -1 || !looksLikeCitation then
    ('[' :: (cand ++ [']']), found)
  else
    let citationUrl : Option (List Char) := urls[dataPointIndex.toNat]?
    match firstKeyIdx found cand with
    | some i => (renderSup cand (i + 1), found)
    | none =>
        (renderSup cand (found.length + 1),
         found ++ [{ identifier := cand, url := citationUrl.getD [] }])

/-- The `parts.map((part, index) => ...)` loop: even positions are plain text
(passed through unchanged), odd positions are candidates.  The Boolean flag
says whether the next part sits at an odd index (`index % 2 === 1`); the
found-citations state threads left to right exactly as the JS closure mutates
`foundCitationsInText`. -/
def processParts (dps : JsDataPoints) (urls : List (List Char)) :
    List (List Char) → Bool → List FoundCitation →
    List (List Char) × List FoundCitation
  | [], _, found => ([], found)
  | part :: rest, isCand, found =>
      if isCand then
        let pr := processCandidate dps urls found part
        let rest2 := processParts dps urls rest false pr.2
        (pr.1 :: rest2.1, rest2.2)
      else
        let rest2 := processParts dps urls rest true found
        (part :: rest2.1, rest2.2)

/-- `fragments.join("")`. -/
def joinAll : List (List Char) → List Char
  | [] => []
  | x :: xs => x ++ joinAll xs

/-- The result record of `parseAnswerToHtml`. -/
structure HtmlParsedAnswer where
  answerHtml : List Char
  citations : List (List Char)
  citationUrls : List (List Char)
  deriving DecidableEq

/-- Trimming followed by the conditional streaming truncation: the value of
`parsedAnswer` at the point where the split happens. -/
def preprocessAnswer (answer : List Char) (isStreaming : Bool) : List Char :=
  let parsedAnswer := jsTrim answer
  if isStreaming then streamTrunc parsedAnswer else parsedAnswer

/-- The `parts` array computed by `parseAnswerToHtml`. -/
def answerParts (answer : List Char) (isStreaming : Bool) : List (List Char) :=
  splitParts (preprocessAnswer answer isStreaming)

/-- The `fragments` array computed by `parseAnswerToHtml`. -/
def answerFragments (answer : List Char) (isStreaming : Bool)
    (dps : JsDataPoints) (urls : List (List Char)) : List (List Char) :=
  (processParts dps urls (answerParts answer isStreaming) false []).1

/-- `parseAnswerToHtml(answer, isStreaming, onCitationClicked)`, with the
already-extracted `sourceUrls` (`answer.context.data_addon?.sourceurl || []`)
and `contextDataPoints` (`answer.context.data_points`) as parameters.  The
`onCitationClicked` callback does not influence the returned value and is
omitted. -/
def parseAnswerToHtml (answer : List Char) (isStreaming : Bool)
    (dps : JsDataPoints) (urls : List (List Char)) : HtmlParsedAnswer :=
  let pr := processParts dps urls (answerParts answer isStreaming) false []
  { answerHtml := joinAll pr.1
    citations := keys pr.2
    citationUrls := pr.2.map FoundCitation.url }

/-- The validity test a candidate must pass to become a citation: negation of
the re-emit-literally branch condition
`dataPointIndex === -1 || !looksLikeCitation`. -/
def candValid (dps : JsDataPoints) (cand : List Char) : Bool :=
  !(findCitationIndexInDataPoints dps cand == -1) && testCitationRegex cand

/-- Whether the answer part at index `i` is treated as a citation candidate,
given that the part at relative index 0 has flag `b` (`parseAnswerToHtml`
starts with `b = false`: index 0 of the split is plain text). -/
def flagAt (b : Bool) (i : Nat) : Bool :=
  if i % 2 = 0 then b else !b

/-- Whether a character list contains the two-character run `[]`. -/
def containsPair : List Char → Bool
  | [] => false
  | '[' :: ']' :: _ => true
  | _ :: rest => containsPair rest

/-- A found citation whose URL was resolved positionally: its identifier's
data-point index is a genuine array index `i` and its URL is `sourceUrls[i]`
when defined, `""` otherwise. -/
def entryOk (dps : JsDataPoints) (urls : List (List Char))
    (fc : FoundCitation) : Prop :=
  ∃ i : Nat, findCitationIndexInDataPoints dps fc.identifier = Int.ofNat i ∧
    fc.url = urls[i]?.getD []

/-! ### Helper lemmas about the embedded definitions -/

theorem firstKeyIdx_eq_none : ∀ (found : List FoundCitation) (cand : List Char),
    firstKeyIdx found cand = none ↔ cand ∉ keys found
  | [], cand => by simp [firstKeyIdx, keys]
  | fc :: rest, cand => by
    by_cases h : fc.identifier = cand
    · simp [firstKeyIdx, h, keys]
    · have h2 : ¬ cand = fc.identifier := fun he => h he.symm
      have ih := firstKeyIdx_eq_none rest cand
      simp [firstKeyIdx, h, keys, h2] at ih ⊢
      exact ih

theorem firstKeyIdx_some_get {found : List FoundCitation} {cand : List Char} {i : Nat}
    (h : firstKeyIdx found cand = some i) : (keys found)[i]? = some cand := by
  induction found generalizing i with
  | nil => simp [firstKeyIdx] at h
  | cons fc rest ih =>
    by_cases hid : fc.identifier = cand
    · simp [firstKeyIdx, hid] at h
      subst h
      simp [keys, hid]
    · simp [firstKeyIdx, hid] at h
      obtain ⟨j, hj, hji⟩ := h
      subst hji
      simpa [keys] using ih hj

theorem firstKeyIdx_append {found ext : List FoundCitation} {cand : List Char} {i : Nat}
    (h : firstKeyIdx found cand = some i) :
    firstKeyIdx (found ++ ext) cand = some i := by
  induction found generalizing i with
  | nil => simp [firstKeyIdx] at h
  | cons fc rest ih =>
    by_cases hid : fc.identifier = cand
    · simp [firstKeyIdx, hid] at h ⊢
      exact h
    · simp [firstKeyIdx, hid] at h ⊢
      obtain ⟨j, hj, hji⟩ := h
      exact ⟨j, ih hj, hji⟩

theorem firstKeyIdx_append_new {found : List FoundCitation} {cand : List Char}
    (h : cand ∉ keys found) (u : List Char) :
    firstKeyIdx (found ++ [{ identifier := cand, url := u }]) cand = some found.length := by
  induction found with
  | nil => simp [firstKeyIdx]
  | cons fc rest ih =>
    have hid : fc.identifier ≠ cand := by
      intro he
      exact h (by simp [keys, he])
    have hrest : cand ∉ keys rest := by
      intro hc
      exact h (by simp [keys] at hc ⊢; exact Or.inr hc)
    simp [firstKeyIdx, hid, ih hrest]

theorem candValid_false_branch {dps : JsDataPoints} {cand : List Char}
    (h : candValid dps cand = false) :
    ((findCitationIndexInDataPoints dps cand == -1) || !testCitationRegex cand) = true := by
  unfold candValid at h
  cases h1 : (findCitationIndexInDataPoints dps cand == -1) <;>
    cases h2 : testCitationRegex cand <;> simp [h1, h2] at h ⊢

theorem candValid_true_branch {dps : JsDataPoints} {cand : List Char}
    (h : candValid dps cand = true) :
    ((findCitationIndexInDataPoints dps cand == -1) || !testCitationRegex cand) = false := by
  unfold candValid at h
  cases h1 : (findCitationIndexInDataPoints dps cand == -1) <;>
    cases h2 : testCitationRegex cand <;> simp [h1, h2] at h ⊢

theorem processCandidate_invalid {dps : JsDataPoints} {cand : List Char}
    (urls : List (List Char)) (found : List FoundCitation)
    (h : candValid dps cand = false) :
    processCandidate dps urls found cand = ('[' :: (cand ++ [']']), found) := by
  unfold processCandidate
  simp [candValid_false_branch h]

theorem processCandidate_existing {dps : JsDataPoints} {cand : List Char} {i : Nat}
    (urls : List (List Char)) {found : List FoundCitation}
    (h : candValid dps cand = true) (hk : firstKeyIdx found cand = some i) :
    processCandidate dps urls found cand = (renderSup cand (i + 1), found) := by
  unfold processCandidate
  simp [candValid_true_branch h, hk]

theorem processCandidate_new {dps : JsDataPoints} {cand : List Char}
    (urls : List (List Char)) {found : List FoundCitation}
    (h : candValid dps cand = true) (hk : firstKeyIdx found cand = none) :
    processCandidate dps urls found cand =
      (renderSup cand (found.length + 1),
       found ++ [{ identifier := cand,
                   url := urls[(findCitationIndexInDataPoints dps cand).toNat]?.getD [] }]) := by
  unfold processCandidate
  simp [candValid_true_branch h, hk]

theorem processCandidate_extends (dps : JsDataPoints) (urls : List (List Char))
    (found : List FoundCitation) (cand : List Char) :
    ∃ ext, (processCandidate dps urls found cand).2 = found ++ ext := by
  cases hv : candValid dps cand with
  | false =>
    rw [processCandidate_invalid urls found hv]
    exact ⟨[], by simp⟩
  | true =>
    cases hk : firstKeyIdx found cand with
    | none =>
      rw [processCandidate_new urls hv hk]
      exact ⟨_, rfl⟩
    | some i =>
      rw [processCandidate_existing urls hv hk]
      exact ⟨[], by simp⟩

theorem processCandidate_nodup {dps : JsDataPoints} {cand : List Char}
    {urls : List (List Char)} {found : List FoundCitation}
    (h : (keys found).Nodup) :
    (keys (processCandidate dps urls found cand).2).Nodup := by
  cases hv : candValid dps cand with
  | false =>
    rw [processCandidate_invalid urls found hv]
    exact h
  | true =>
    cases hk : firstKeyIdx found cand with
    | some i =>
      rw [processCandidate_existing urls hv hk]
      exact h
    | none =>
      rw [processCandidate_new urls hv hk]
      have hnot : cand ∉ keys found := (firstKeyIdx_eq_none found cand).mp hk
      have hkeys : keys (found ++ [{ identifier := cand, url :=
          urls[(findCitationIndexInDataPoints dps cand).toNat]?.getD [] }]) =
          keys found ++ [cand] := by simp [keys]
      rw [hkeys]
      exact ((List.perm_append_singleton cand (keys found)).nodup_iff).mpr
        (List.nodup_cons.mpr ⟨hnot, h⟩)

theorem processParts_cons_false (dps : JsDataPoints) (urls : List (List Char))
    (p : List Char) (rest : List (List Char)) (found : List FoundCitation) :
    processParts dps urls (p :: rest) false found =
      (p :: (processParts dps urls rest true found).1,
       (processParts dps urls rest true found).2) := rfl

theorem processParts_cons_true (dps : JsDataPoints) (urls : List (List Char))
    (p : List Char) (rest : List (List Char)) (found : List FoundCitation) :
    processParts dps urls (p :: rest) true found =
      ((processCandidate dps urls found p).1 ::
         (processParts dps urls rest false (processCandidate dps urls found p).2).1,
       (processParts dps urls rest false (processCandidate dps urls found p).2).2) := rfl

theorem processParts_extends (dps : JsDataPoints) (urls : List (List Char)) :
    ∀ (parts : List (List Char)) (b : Bool) (found : List FoundCitation),
      ∃ ext, (processParts dps urls parts b found).2 = found ++ ext := by
  intro parts
  induction parts with
  | nil => exact fun b found => ⟨[], by simp [processParts]⟩
  | cons p rest ih =>
    intro b found
    cases b with
    | false =>
      obtain ⟨ext, hext⟩ := ih true found
      exact ⟨ext, by rw [processParts_cons_false]; exact hext⟩
    | true =>
      obtain ⟨ext0, hext0⟩ := processCandidate_extends dps urls found p
      obtain ⟨ext1, hext1⟩ := ih false (processCandidate dps urls found p).2
      refine ⟨ext0 ++ ext1, ?_⟩
      rw [processParts_cons_true, hext1, hext0, List.append_assoc]

theorem processParts_nodup (dps : JsDataPoints) (urls : List (List Char)) :
    ∀ (parts : List (List Char)) (b : Bool) (found : List FoundCitation),
      (keys found).Nodup → (keys (processParts dps urls parts b found).2).Nodup := by
  intro parts
  induction parts with
  | nil => exact fun b found h => by simpa [processParts]
  | cons p rest ih =>
    intro b found h
    cases b with
    | false =>
      rw [processParts_cons_false]
      exact ih true found h
    | true =>
      rw [processParts_cons_true]
      exact ih false _ (processCandidate_nodup h)

theorem flagAt_succ (b : Bool) (i : Nat) : flagAt b (i + 1) = flagAt (!b) i := by
  unfold flagAt
  rcases Nat.mod_two_eq_zero_or_one i with h | h
  · have h2 : (i + 1) % 2 = 1 := by omega
    simp [h, h2]
  · have h2 : (i + 1) % 2 = 0 := by omega
    simp [h, h2]

theorem fci_of_candValid {dps : JsDataPoints} {cand : List Char}
    (h : candValid dps cand = true) :
    ∃ i : Nat, findCitationIndexInDataPoints dps cand = Int.ofNat i := by
  unfold candValid at h
  rw [Bool.and_eq_true] at h
  have hne : findCitationIndexInDataPoints dps cand ≠ -1 := by
    intro he
    rw [he] at h
    simp at h
  cases hres : resolveDataPointsArray dps with
  | none =>
    simp only [findCitationIndexInDataPoints, hres] at hne
    simp at hne
  | some xs =>
    cases hm : findMatchIdx xs cand with
    | none =>
      simp only [findCitationIndexInDataPoints, hres, hm] at hne
      simp at hne
    | some i =>
      exact ⟨i, by simp only [findCitationIndexInDataPoints, hres, hm]⟩

theorem processCandidate_entryOk {dps : JsDataPoints} {urls : List (List Char)}
    {found : List FoundCitation} {cand : List Char}
    (h : ∀ fc ∈ found, entryOk dps urls fc) :
    ∀ fc ∈ (processCandidate dps urls found cand).2, entryOk dps urls fc := by
  cases hv : candValid dps cand with
  | false =>
    rw [processCandidate_invalid urls found hv]
    exact h
  | true =>
    cases hk : firstKeyIdx found cand with
    | some i =>
      rw [processCandidate_existing urls hv hk]
      exact h
    | none =>
      rw [processCandidate_new urls hv hk]
      intro fc hfc
      rcases List.mem_append.mp hfc with hin | hin
      · exact h fc hin
      · have heq : fc = { identifier := cand, url :=
            urls[(findCitationIndexInDataPoints dps cand).toNat]?.getD [] } := by
          simpa using hin
        subst heq
        obtain ⟨i, hi⟩ := fci_of_candValid hv
        exact ⟨i, hi, by rw [hi]; simp⟩

theorem processParts_entryOk (dps : JsDataPoints) (urls : List (List Char)) :
    ∀ (parts : List (List Char)) (b : Bool) (found : List FoundCitation),
      (∀ fc ∈ found, entryOk dps urls fc) →
      ∀ fc ∈ (processParts dps urls parts b found).2, entryOk dps urls fc := by
  intro parts
  induction parts with
  | nil => intro b found h; simpa [processParts]
  | cons p rest ih =>
    intro b found h
    cases b with
    | false =>
      rw [processParts_cons_false]
      exact ih true found h
    | true =>
      rw [processParts_cons_true]
      exact ih false _ (processCandidate_entryOk h)

theorem findMatchIdx_some : ∀ (xs : List JsVal) (cand : List Char) (i : Nat),
    findMatchIdx xs cand = some i →
    (∃ s, xs[i]? = some (JsVal.str s) ∧ jsStartsWith s cand = true) ∧
    ∀ k v, k < i → xs[k]? = some v → dpMatches v cand = false := by
  intro xs
  induction xs with
  | nil => intro cand i h; simp [findMatchIdx] at h
  | cons v rest ih =>
    intro cand i h
    by_cases hm : dpMatches v cand = true
    · simp [findMatchIdx, hm] at h
      subst h
      refine ⟨?_, ?_⟩
      · cases v with
        | str s => exact ⟨s, by simp, by simpa [dpMatches] using hm⟩
        | num n => simp [dpMatches] at hm
        | nullv => simp [dpMatches] at hm
      · intro k v2 hk _
        exact absurd hk (Nat.not_lt_zero k)
    · have hm2 : dpMatches v cand = false := by
        simpa using hm
      simp [findMatchIdx, hm2] at h
      obtain ⟨j, hj, hji⟩ := h
      obtain ⟨⟨s, hs1, hs2⟩, hlt⟩ := ih cand j hj
      subst hji
      constructor
      · exact ⟨s, by simpa using hs1, hs2⟩
      · intro k v2 hk hget
        cases k with
        | zero =>
          have h0 : v = v2 := by simpa using hget
          exact h0 ▸ hm2
        | succ k2 =>
          exact hlt k2 v2 (by omega) (by simpa using hget)

theorem fci_char {dps : JsDataPoints} {cand : List Char} {i : Nat}
    (h : findCitationIndexInDataPoints dps cand = Int.ofNat i) :
    ∃ xs, resolveDataPointsArray dps = some xs ∧
      (∃ s, xs[i]? = some (JsVal.str s) ∧ jsStartsWith s cand = true) ∧
      ∀ k v, k < i → xs[k]? = some v → dpMatches v cand = false := by
  cases hres : resolveDataPointsArray dps with
  | none =>
    simp only [findCitationIndexInDataPoints, hres, Int.ofNat_eq_natCast] at h
    omega
  | some xs =>
    cases hm : findMatchIdx xs cand with
    | none =>
      simp only [findCitationIndexInDataPoints, hres, hm, Int.ofNat_eq_natCast] at h
      omega
    | some j =>
      simp only [findCitationIndexInDataPoints, hres, hm, Int.ofNat_eq_natCast] at h
      have hj : j = i := by omega
      subst hj
      exact ⟨xs, rfl, findMatchIdx_some xs cand j hm⟩

theorem processParts_frag (dps : JsDataPoints) (urls : List (List Char)) :
    ∀ (parts : List (List Char)) (b : Bool) (found0 : List FoundCitation),
      (keys found0).Nodup →
      ∀ (i : Nat) (cand : List Char), parts[i]? = some cand → flagAt b i = true →
        (candValid dps cand = true →
          ∃ j, firstKeyIdx (processParts dps urls parts b found0).2 cand = some j ∧
            (processParts dps urls parts b found0).1[i]? = some (renderSup cand (j + 1))) ∧
        (candValid dps cand = false →
          (processParts dps urls parts b found0).1[i]? = some ('[' :: (cand ++ [']']))) := by
  intro parts
  induction parts with
  | nil => intro b found0 _ i cand h _; simp at h
  | cons p rest ih =>
    intro b found0 hnd i cand hget hflag
    cases b with
    | false =>
      cases i with
      | zero => simp [flagAt] at hflag
      | succ i2 =>
        have hget2 : rest[i2]? = some cand := by simpa using hget
        have hflag2 : flagAt true i2 = true := by
          rw [flagAt_succ] at hflag
          simpa using hflag
        have hres := ih true found0 hnd i2 cand hget2 hflag2
        rw [processParts_cons_false]
        constructor
        · intro hv
          obtain ⟨j, hj1, hj2⟩ := hres.1 hv
          exact ⟨j, hj1, by simpa using hj2⟩
        · intro hv
          simpa using hres.2 hv
    | true =>
      cases i with
      | zero =>
        have hpc : p = cand := by simpa using hget
        subst hpc
        rw [processParts_cons_true]
        constructor
        · intro hv
          cases hk : firstKeyIdx found0 p with
          | some j0 =>
            rw [processCandidate_existing urls hv hk]
            obtain ⟨ext, hext⟩ := processParts_extends dps urls rest false found0
            refine ⟨j0, ?_, by simp⟩
            rw [hext]
            exact firstKeyIdx_append hk
          | none =>
            rw [processCandidate_new urls hv hk]
            obtain ⟨ext, hext⟩ := processParts_extends dps urls rest false
              (found0 ++ [{ identifier := p, url :=
                urls[(findCitationIndexInDataPoints dps p).toNat]?.getD [] }])
            refine ⟨found0.length, ?_, by simp⟩
            rw [hext]
            exact firstKeyIdx_append
              (firstKeyIdx_append_new ((firstKeyIdx_eq_none found0 p).mp hk) _)
        · intro hv
          rw [processCandidate_invalid urls found0 hv]
          simp
      | succ i2 =>
        have hget2 : rest[i2]? = some cand := by simpa using hget
        have hflag2 : flagAt false i2 = true := by
          rw [flagAt_succ] at hflag
          simpa using hflag
        have hnd2 : (keys (processCandidate dps urls found0 p).2).Nodup :=
          processCandidate_nodup hnd
        have hres := ih false (processCandidate dps urls found0 p).2 hnd2 i2 cand hget2 hflag2
        rw [processParts_cons_true]
        constructor
        · intro hv
          obtain ⟨j, hj1, hj2⟩ := hres.1 hv
          exact ⟨j, hj1, by simpa using hj2⟩
        · intro hv
          simpa using hres.2 hv

theorem truncDrop_append_rb : ∀ (xs ys : List Char),
    (∀ c ∈ xs, c ≠ '[' ∧ c ≠ ']') → truncDrop (xs ++ ']' :: ys) = 0 := by
  intro xs ys h
  induction xs with
  | nil => simp [truncDrop]
  | cons c rest ih =>
    have hc := h c (by simp)
    have ihr := ih (fun d hd => h d (by simp [hd]))
    simp [truncDrop, hc.1, hc.2, ihr]

theorem truncDrop_append_lb : ∀ (xs ys : List Char),
    (∀ c ∈ xs, c ≠ '[' ∧ c ≠ ']') → truncDrop (xs ++ '[' :: ys) = xs.length + 1 := by
  intro xs ys h
  induction xs with
  | nil => simp [truncDrop]
  | cons c rest ih =>
    have hc := h c (by simp)
    have ihr := ih (fun d hd => h d (by simp [hd]))
    simp [truncDrop, hc.1, hc.2, ihr]

theorem truncDrop_eq_zero : ∀ (xs : List Char),
    (∀ c ∈ xs, c ≠ '[' ∧ c ≠ ']') → truncDrop xs = 0 := by
  intro xs h
  induction xs with
  | nil => simp [truncDrop]
  | cons c rest ih =>
    have hc := h c (by simp)
    have ihr := ih (fun d hd => h d (by simp [hd]))
    simp [truncDrop, hc.1, hc.2, ihr]

theorem streamTrunc_after_rb (a b : List Char)
    (h : ∀ c ∈ b, c ≠ '[' ∧ c ≠ ']') :
    streamTrunc (a ++ ']' :: b) = a ++ ']' :: b := by
  unfold streamTrunc
  have hrev : (a ++ ']' :: b).reverse = b.reverse ++ ']' :: a.reverse := by simp
  have hz : truncDrop (a ++ ']' :: b).reverse = 0 := by
    rw [hrev]
    exact truncDrop_append_rb _ _ (fun c hc => h c (List.mem_reverse.mp hc))
  rw [hz]
  simp [List.take_length]

theorem streamTrunc_after_lb (a b : List Char)
    (h : ∀ c ∈ b, c ≠ '[' ∧ c ≠ ']') :
    streamTrunc (a ++ '[' :: b) = a := by
  unfold streamTrunc
  have hrev : (a ++ '[' :: b).reverse = b.reverse ++ '[' :: a.reverse := by simp
  have hz : truncDrop (a ++ '[' :: b).reverse = b.length + 1 := by
    rw [hrev]
    rw [truncDrop_append_lb _ _ (fun c hc => h c (List.mem_reverse.mp hc))]
    simp
  rw [hz]
  have hlen : (a ++ '[' :: b).length - (b.length + 1) = a.length := by
    simp
  rw [hlen]
  exact List.take_left a ('[' :: b)

theorem streamTrunc_no_bracket (t : List Char)
    (h : ∀ c ∈ t, c ≠ '[' ∧ c ≠ ']') :
    streamTrunc t = t := by
  unfold streamTrunc
  rw [truncDrop_eq_zero _ (fun c hc => h c (List.mem_reverse.mp hc))]
  simp [List.take_length]

theorem mem_of_mem_jsTrim {c : Char} {cs : List Char} (h : c ∈ jsTrim cs) : c ∈ cs := by
  unfold jsTrim at h
  rw [List.mem_reverse] at h
  have h1 := (List.dropWhile_sublist _).subset h
  rw [List.mem_reverse] at h1
  exact (List.dropWhile_sublist _).subset h1

theorem splitGo_nil_none (acc : List Char) :
    splitGo [] none acc = [acc.reverse] := rfl

theorem splitGo_nil_some (buf acc : List Char) :
    splitGo [] (some buf) acc = [acc.reverse ++ '[' :: buf.reverse] := rfl

theorem splitGo_cons_none (c : Char) (rest acc : List Char) :
    splitGo (c :: rest) none acc =
      if c = '[' then splitGo rest (some []) acc
      else splitGo rest none (c :: acc) := rfl

theorem splitGo_cons_some (c : Char) (rest buf acc : List Char) :
    splitGo (c :: rest) (some buf) acc =
      if c = ']' then
        match buf with
        | [] => splitGo rest none (']' :: '[' :: acc)
        | _ :: _ => acc.reverse :: buf.reverse :: splitGo rest none []
      else splitGo rest (some (c :: buf)) acc := rfl

theorem splitGo_no_lb : ∀ (cs : List Char) (acc : List Char),
    (∀ c ∈ cs, c ≠ '[') → splitGo cs none acc = [acc.reverse ++ cs] := by
  intro cs
  induction cs with
  | nil => intro acc _; simp [splitGo_nil_none]
  | cons c rest ih =>
    intro acc h
    have hc : c ≠ '[' := h c (by simp)
    rw [splitGo_cons_none, if_neg hc, ih (c :: acc) (fun d hd => h d (by simp [hd]))]
    simp

theorem splitGo_parts_sound : ∀ (cs : List Char) (mode : Option (List Char)) (acc : List Char),
    (∀ buf, mode = some buf → ']' ∉ buf) →
    ∀ (i : Nat) (cand : List Char), (splitGo cs mode acc)[i]? = some cand → i % 2 = 1 →
      cand ≠ [] ∧ ']' ∉ cand := by
  intro cs
  induction cs with
  | nil =>
    intro mode acc _ i cand hget hodd
    cases mode with
    | none =>
      rw [splitGo_nil_none] at hget
      have : i = 0 := by
        by_contra hne
        rcases Nat.exists_eq_succ_of_ne_zero hne with ⟨k, hk⟩
        subst hk
        simp at hget
      omega
    | some buf =>
      rw [splitGo_nil_some] at hget
      have : i = 0 := by
        by_contra hne
        rcases Nat.exists_eq_succ_of_ne_zero hne with ⟨k, hk⟩
        subst hk
        simp at hget
      omega
  | cons c rest ih =>
    intro mode acc hmode i cand hget hodd
    cases mode with
    | none =>
      by_cases hc : c = '['
      · rw [splitGo_cons_none, if_pos hc] at hget
        exact ih (some []) acc (by intro buf hb; cases hb; simp) i cand hget hodd
      · rw [splitGo_cons_none, if_neg hc] at hget
        exact ih none (c :: acc) (by intro buf hb; cases hb) i cand hget hodd
    | some buf =>
      by_cases hc : c = ']'
      · cases buf with
        | nil =>
          rw [splitGo_cons_some, if_pos hc] at hget
          exact ih none (']' :: '[' :: acc) (by intro buf hb; cases hb) i cand hget hodd
        | cons b bs =>
          rw [splitGo_cons_some, if_pos hc] at hget
          have hb : ']' ∉ b :: bs := hmode (b :: bs) rfl
          match i, hodd with
          | 1, _ =>
            have hcand : (b :: bs).reverse = cand := by simpa using hget
            subst hcand
            refine ⟨by simp, ?_⟩
            rw [List.mem_reverse]
            exact hb
          | (k + 2), hodd =>
            have hget2 : (splitGo rest none [])[k]? = some cand := by simpa using hget
            exact ih none [] (by intro buf hb2; cases hb2) k cand hget2 (by omega)
      · rw [splitGo_cons_some, if_neg hc] at hget
        refine ih (some (c :: buf)) acc ?_ i cand hget hodd
        intro buf2 hb2
        cases hb2
        intro hmem
        rcases List.mem_cons.mp hmem with he | hm
        · exact hc he.symm
        · exact hmode buf rfl hm

theorem splitGo_skip_pre : ∀ (a : List Char) (acc b : List Char),
    (∀ c ∈ a, c ≠ '[') →
    splitGo (a ++ '[' :: ']' :: b) none acc =
      splitGo b none (']' :: '[' :: (a.reverse ++ acc)) := by
  intro a
  induction a with
  | nil =>
    intro acc b _
    rw [List.nil_append, splitGo_cons_none, if_pos rfl, splitGo_cons_some, if_pos rfl]
    simp
  | cons c a2 ih =>
    intro acc b h
    have hc : c ≠ '[' := h c (by simp)
    rw [List.cons_append, splitGo_cons_none, if_neg hc,
        ih (c :: acc) b (fun d hd => h d (by simp [hd]))]
    simp

theorem splitGo_acc : ∀ (cs : List Char) (mode : Option (List Char)) (acc : List Char),
    ∃ h t, splitGo cs mode [] = h :: t ∧ splitGo cs mode acc = (acc.reverse ++ h) :: t := by
  intro cs
  induction cs with
  | nil =>
    intro mode acc
    cases mode with
    | none => exact ⟨[], [], by simp [splitGo_nil_none], by simp [splitGo_nil_none]⟩
    | some buf =>
      exact ⟨'[' :: buf.reverse, [], by simp [splitGo_nil_some], by simp [splitGo_nil_some]⟩
  | cons c rest ih =>
    intro mode acc
    cases mode with
    | none =>
      by_cases hc : c = '['
      · obtain ⟨h, t, e1, e2⟩ := ih (some []) acc
        exact ⟨h, t, by rw [splitGo_cons_none, if_pos hc]; exact e1,
               by rw [splitGo_cons_none, if_pos hc]; exact e2⟩
      · obtain ⟨h, t, e1, e2⟩ := ih none [c]
        obtain ⟨h2, t2, e3, e4⟩ := ih none (c :: acc)
        have hinj : h :: t = h2 :: t2 := e1.symm.trans e3
        injection hinj with hh ht
        refine ⟨c :: h, t, ?_, ?_⟩
        · rw [splitGo_cons_none, if_neg hc, e2]
          simp
        · rw [splitGo_cons_none, if_neg hc, e4, ← hh, ← ht]
          simp
    | some buf =>
      by_cases hc : c = ']'
      · cases buf with
        | nil =>
          obtain ⟨h, t, e1, e2⟩ := ih none [']', '[']
          obtain ⟨h2, t2, e3, e4⟩ := ih none (']' :: '[' :: acc)
          have hinj : h :: t = h2 :: t2 := e1.symm.trans e3
          injection hinj with hh ht
          refine ⟨'[' :: ']' :: h, t, ?_, ?_⟩
          · rw [splitGo_cons_some, if_pos hc, e2]
            simp
          · rw [splitGo_cons_some, if_pos hc, e4, ← hh, ← ht]
            simp
        | cons b bs =>
          refine ⟨[], (b :: bs).reverse :: splitGo rest none [], ?_, ?_⟩
          · rw [splitGo_cons_some, if_pos hc]
            simp
          · rw [splitGo_cons_some, if_pos hc]
            simp
      · obtain ⟨h, t, e1, e2⟩ := ih (some (c :: buf)) acc
        exact ⟨h, t, by rw [splitGo_cons_some, if_neg hc]; exact e1,
               by rw [splitGo_cons_some, if_neg hc]; exact e2⟩

theorem processCandidate_shape_congr (L : List JsVal) (urls : List (List Char))
    (found : List FoundCitation) (cand : List Char) :
    processCandidate (JsDataPoints.arr L) urls found cand =
      processCandidate (JsDataPoints.objText L) urls found cand := rfl

theorem processParts_shape_congr (L : List JsVal) (urls : List (List Char)) :
    ∀ (parts : List (List Char)) (b : Bool) (found : List FoundCitation),
      processParts (JsDataPoints.arr L) urls parts b found =
        processParts (JsDataPoints.objText L) urls parts b found := by
  intro parts
  induction parts with
  | nil => intro b found; rfl
  | cons p rest ih =>
    intro b found
    cases b with
    | false =>
      rw [processParts_cons_false, processParts_cons_false, ih true found]
    | true =>
      rw [processParts_cons_true, processParts_cons_true,
          processCandidate_shape_congr, ih false]

theorem parseAnswerToHtml_eq (answer : List Char) (isStreaming : Bool)
    (dps : JsDataPoints) (urls : List (List Char)) :
    parseAnswerToHtml answer isStreaming dps urls =
      { answerHtml := joinAll (processParts dps urls (answerParts answer isStreaming) false []).1
        citations := keys (processParts dps urls (answerParts answer isStreaming) false []).2
        citationUrls :=
          (processParts dps urls (answerParts answer isStreaming) false []).2.map
            FoundCitation.url } := rfl

theorem processParts_nil (dps : JsDataPoints) (urls : List (List Char))
    (b : Bool) (found : List FoundCitation) :
    processParts dps urls [] b found = ([], found) := rfl

theorem mem_of_idx {α : Type _} {l : List α} {i : Nat} {a : α}
    (h : l[i]? = some a) : a ∈ l := by
  rcases List.getElem?_eq_some.mp h with ⟨hlt, he⟩
  exact he ▸ List.getElem_mem hlt

theorem flagAt_false_of_odd {i : Nat} (h : i % 2 = 1) : flagAt false i = true := by
  simp [flagAt, h]

theorem keys_nil_nodup : (keys []).Nodup := by simp [keys]

theorem countOccurrences_eq_zero {x : List Char} : ∀ {l : List (List Char)},
    x ∉ l → countOccurrences x l = 0 := by
  intro l
  induction l with
  | nil => intro _; rfl
  | cons y rest ih =>
    intro h
    have hy : ¬ y = x := fun he => h (by simp [he])
    have hr : x ∉ rest := fun hm => h (by simp [hm])
    simp [countOccurrences, hy, ih hr]

theorem countOccurrences_eq_one {x : List Char} : ∀ {l : List (List Char)},
    l.Nodup → x ∈ l → countOccurrences x l = 1 := by
  intro l
  induction l with
  | nil => intro _ hm; simp at hm
  | cons y rest ih =>
    intro hnd hm
    rw [List.nodup_cons] at hnd
    rcases List.mem_cons.mp hm with he | hm2
    · subst he
      simp [countOccurrences, countOccurrences_eq_zero hnd.1]
    · have hy : ¬ y = x := fun he => hnd.1 (he ▸ hm2)
      simp [countOccurrences, hy, ih hnd.2 hm2]

/-- C7: for every answer and list of document-descriptor strings `L`, parsing
with the flat array `L` as data points and parsing with the nested object
`{ text: L }` produce identical results. -/
theorem flat_nested_datapoints_equivalent :
    ∀ (answer : List Char) (isStreaming : Bool) (L : List (List Char))
      (urls : List (List Char)),
      parseAnswerToHtml answer isStreaming (JsDataPoints.arr (L.map JsVal.str)) urls =
        parseAnswerToHtml answer isStreaming (JsDataPoints.objText (L.map JsVal.str)) urls := by
  intro answer s L urls
  rw [parseAnswerToHtml_eq, parseAnswerToHtml_eq, processParts_shape_congr]

/-- C2: for every parse result, `citations` and `citationUrls` have equal
length and are index-aligned projections of one found-citations list, the
identifiers in `citations` are unique, and the number displayed for a valid
candidate equals its index in `citations` plus 1. -/
theorem parse_result_invariants :
    (∀ (answer : List Char) (isStreaming : Bool) (dps : JsDataPoints)
       (urls : List (List Char)),
       (parseAnswerToHtml answer isStreaming dps urls).citations.length =
         (parseAnswerToHtml answer isStreaming dps urls).citationUrls.length) ∧
    (∀ (answer : List Char) (isStreaming : Bool) (dps : JsDataPoints)
       (urls : List (List Char)),
       ∃ found : List FoundCitation,
         (parseAnswerToHtml answer isStreaming dps urls).citations = keys found ∧
         (parseAnswerToHtml answer isStreaming dps urls).citationUrls =
           found.map FoundCitation.url) ∧
    (∀ (answer : List Char) (isStreaming : Bool) (dps : JsDataPoints)
       (urls : List (List Char)),
       (parseAnswerToHtml answer isStreaming dps urls).citations.Nodup) ∧
    (∀ (answer : List Char) (isStreaming : Bool) (dps : JsDataPoints)
       (urls : List (List Char)) (i : Nat) (cand : List Char),
       (answerParts answer isStreaming)[i]? = some cand → i % 2 = 1 →
       candValid dps cand = true →
       ∃ j, (parseAnswerToHtml answer isStreaming dps urls).citations[j]? = some cand ∧
         (answerFragments answer isStreaming dps urls)[i]? =
           some (renderSup cand (j + 1))) := by
  refine ⟨?_, ?_, ?_, ?_⟩
  · intro answer s dps urls
    rw [parseAnswerToHtml_eq]
    simp [keys]
  · intro answer s dps urls
    exact ⟨(processParts dps urls (answerParts answer s) false []).2, rfl, rfl⟩
  · intro answer s dps urls
    rw [parseAnswerToHtml_eq]
    exact processParts_nodup dps urls (answerParts answer s) false [] keys_nil_nodup
  · intro answer s dps urls i cand hget hodd hv
    have hres := (processParts_frag dps urls (answerParts answer s) false []
      keys_nil_nodup i cand hget (flagAt_false_of_odd hodd)).1 hv
    obtain ⟨j, hj1, hj2⟩ := hres
    exact ⟨j, by rw [parseAnswerToHtml_eq]; exact firstKeyIdx_some_get hj1, hj2⟩

theorem parse_result_invariants_witness :
    (parseAnswerToHtml "A [x.pdf] B".toList false
        (JsDataPoints.arr [JsVal.str "x.pdf stuff".toList]) ["u".toList]).citations.length =
      (parseAnswerToHtml "A [x.pdf] B".toList false
        (JsDataPoints.arr [JsVal.str "x.pdf stuff".toList]) ["u".toList]).citationUrls.length ∧
    ∃ j, (parseAnswerToHtml "A [x.pdf] B".toList false
        (JsDataPoints.arr [JsVal.str "x.pdf stuff".toList])
        ["u".toList]).citations[j]? = some "x.pdf".toList ∧
      (answerFragments "A [x.pdf] B".toList false
        (JsDataPoints.arr [JsVal.str "x.pdf stuff".toList])
        ["u".toList])[1]? = some (renderSup "x.pdf".toList (j + 1)) :=
  ⟨parse_result_invariants.1 _ _ _ _,
   parse_result_invariants.2.2.2 "A [x.pdf] B".toList false
     (JsDataPoints.arr [JsVal.str "x.pdf stuff".toList]) ["u".toList] 1 "x.pdf".toList
     (by decide) (by decide) (by decide)⟩

set_option maxRecDepth 8000 in
set_option maxHeartbeats 1000000 in
/-- C1: repeated occurrences of the same valid, resolvable candidate yield one
`citations` entry (first occurrence wins) and display the same number at every
occurrence; for distinct valid candidates in order A, B, A, C the citations
are [A, B, C] and the displayed numbers are 1, 2, 1, 3. -/
theorem repeated_citations_dedup_stable :
    (∀ (answer : List Char) (isStreaming : Bool) (dps : JsDataPoints)
       (urls : List (List Char)) (i j : Nat) (cand : List Char),
       (answerParts answer isStreaming)[i]? = some cand →
       (answerParts answer isStreaming)[j]? = some cand →
       i % 2 = 1 → j % 2 = 1 → candValid dps cand = true →
       (answerFragments answer isStreaming dps urls)[i]? =
         (answerFragments answer isStreaming dps urls)[j]?) ∧
    (∀ (answer : List Char) (isStreaming : Bool) (dps : JsDataPoints)
       (urls : List (List Char)) (i : Nat) (cand : List Char),
       (answerParts answer isStreaming)[i]? = some cand → i % 2 = 1 →
       candValid dps cand = true →
       countOccurrences cand (parseAnswerToHtml answer isStreaming dps urls).citations = 1) ∧
    (parseAnswerToHtml "x [a.pdf] y [b.pdf] z [a.pdf] w [c.pdf]".toList false
        (JsDataPoints.arr [JsVal.str "a.pdf one".toList, JsVal.str "b.pdf two".toList,
                           JsVal.str "c.pdf three".toList])
        ["uA".toList, "uB".toList, "uC".toList] =
      { answerHtml := "x ".toList ++ renderSup "a.pdf".toList 1 ++ " y ".toList ++
          renderSup "b.pdf".toList 2 ++ " z ".toList ++ renderSup "a.pdf".toList 1 ++
          " w ".toList ++ renderSup "c.pdf".toList 3
        citations := ["a.pdf".toList, "b.pdf".toList, "c.pdf".toList]
        citationUrls := ["uA".toList, "uB".toList, "uC".toList] }) := by
  refine ⟨?_, ?_, ?_⟩
  · intro answer s dps urls i j cand hi hj hoi hoj hv
    obtain ⟨j1, hj1, e1⟩ := (processParts_frag dps urls (answerParts answer s) false []
      keys_nil_nodup i cand hi (flagAt_false_of_odd hoi)).1 hv
    obtain ⟨j2, hj2, e2⟩ := (processParts_frag dps urls (answerParts answer s) false []
      keys_nil_nodup j cand hj (flagAt_false_of_odd hoj)).1 hv
    have hjj : j1 = j2 := by
      have := hj1.symm.trans hj2
      exact Option.some.inj this
    rw [show answerFragments answer s dps urls =
          (processParts dps urls (answerParts answer s) false []).1 from rfl, e1, e2, hjj]
  · intro answer s dps urls i cand hget hodd hv
    obtain ⟨j, hj1, _⟩ := (processParts_frag dps urls (answerParts answer s) false []
      keys_nil_nodup i cand hget (flagAt_false_of_odd hodd)).1 hv
    have hmem : cand ∈ (parseAnswerToHtml answer s dps urls).citations := by
      rw [parseAnswerToHtml_eq]
      exact mem_of_idx (firstKeyIdx_some_get hj1)
    have hnd : (parseAnswerToHtml answer s dps urls).citations.Nodup := by
      rw [parseAnswerToHtml_eq]
      exact processParts_nodup dps urls (answerParts answer s) false [] keys_nil_nodup
    exact countOccurrences_eq_one hnd hmem
  · decide

set_option maxRecDepth 8000 in
set_option maxHeartbeats 1000000 in
theorem repeated_citations_dedup_stable_witness :
    (answerFragments "x [a.pdf] y [b.pdf] z [a.pdf] w [c.pdf]".toList false
        (JsDataPoints.arr [JsVal.str "a.pdf one".toList, JsVal.str "b.pdf two".toList,
                           JsVal.str "c.pdf three".toList])
        ["uA".toList, "uB".toList, "uC".toList])[1]? =
      (answerFragments "x [a.pdf] y [b.pdf] z [a.pdf] w [c.pdf]".toList false
        (JsDataPoints.arr [JsVal.str "a.pdf one".toList, JsVal.str "b.pdf two".toList,
                           JsVal.str "c.pdf three".toList])
        ["uA".toList, "uB".toList, "uC".toList])[5]? ∧
    countOccurrences "a.pdf".toList
      (parseAnswerToHtml "x [a.pdf] y [b.pdf] z [a.pdf] w [c.pdf]".toList false
        (JsDataPoints.arr [JsVal.str "a.pdf one".toList, JsVal.str "b.pdf two".toList,
                           JsVal.str "c.pdf three".toList])
        ["uA".toList, "uB".toList, "uC".toList]).citations = 1 :=
  ⟨repeated_citations_dedup_stable.1 _ false _ _ 1 5 "a.pdf".toList
     (by decide) (by decide) (by decide) (by decide) (by decide),
   repeated_citations_dedup_stable.2.1 _ false _ _ 1 "a.pdf".toList
     (by decide) (by decide) (by decide)⟩

set_option maxRecDepth 8000 in
set_option maxHeartbeats 1000000 in
/-- C3: every recorded citation's URL comes from the positional lookup
`sourceUrls[i]`, where `i` is the index of the first data-point entry whose
string value starts with the candidate; with dataPoints
["a.pdf: some text", "b.pdf: other"], sourceUrls ["urlA", "urlB"] and answer
"Fact one [a.pdf]. Fact two [b.pdf]." the citations are ["a.pdf", "b.pdf"],
the URLs ["urlA", "urlB"], and the markers display 1 then 2. -/
theorem citation_urls_positional :
    (∀ (answer : List Char) (isStreaming : Bool) (dps : JsDataPoints)
       (urls : List (List Char)) (j : Nat) (cand : List Char),
       (parseAnswerToHtml answer isStreaming dps urls).citations[j]? = some cand →
       ∃ i : Nat, findCitationIndexInDataPoints dps cand = Int.ofNat i ∧
         (∃ xs, resolveDataPointsArray dps = some xs ∧
           (∃ s0, xs[i]? = some (JsVal.str s0) ∧ jsStartsWith s0 cand = true) ∧
           ∀ k v, k < i → xs[k]? = some v → dpMatches v cand = false) ∧
         (parseAnswerToHtml answer isStreaming dps urls).citationUrls[j]? =
           some (urls[i]?.getD [])) ∧
    (parseAnswerToHtml "Fact one [a.pdf]. Fact two [b.pdf].".toList false
        (JsDataPoints.arr [JsVal.str "a.pdf: some text".toList,
                           JsVal.str "b.pdf: other".toList])
        ["urlA".toList, "urlB".toList] =
      { answerHtml := "Fact one ".toList ++ renderSup "a.pdf".toList 1 ++
          ". Fact two ".toList ++ renderSup "b.pdf".toList 2 ++ ".".toList
        citations := ["a.pdf".toList, "b.pdf".toList]
        citationUrls := ["urlA".toList, "urlB".toList] }) := by
  constructor
  · intro answer s dps urls j cand hget
    rw [parseAnswerToHtml_eq] at hget
    have hmap : (keys (processParts dps urls (answerParts answer s) false []).2)[j]? =
        some cand := hget
    rw [keys, List.getElem?_map] at hmap
    cases hF : (processParts dps urls (answerParts answer s) false []).2[j]? with
    | none => rw [hF] at hmap; simp at hmap
    | some fc =>
      rw [hF] at hmap
      simp at hmap
      have hO : entryOk dps urls fc :=
        processParts_entryOk dps urls (answerParts answer s) false []
          (by intro fc2 h2; simp at h2) fc (mem_of_idx hF)
      obtain ⟨i, hfi, hurl⟩ := hO
      rw [hmap] at hfi
      refine ⟨i, hfi, ?_, ?_⟩
      · obtain ⟨xs, hres, hc1, hc2⟩ := fci_char hfi
        exact ⟨xs, hres, hc1, hc2⟩
      · rw [parseAnswerToHtml_eq]
        show ((processParts dps urls (answerParts answer s) false []).2.map
          FoundCitation.url)[j]? = some (urls[i]?.getD [])
        rw [List.getElem?_map, hF]
        simp [hurl]
  · decide

set_option maxRecDepth 8000 in
set_option maxHeartbeats 1000000 in
theorem citation_urls_positional_witness :
    ∃ i : Nat,
      findCitationIndexInDataPoints
        (JsDataPoints.arr [JsVal.str "a.pdf: some text".toList,
                           JsVal.str "b.pdf: other".toList]) "a.pdf".toList = Int.ofNat i ∧
      (∃ xs, resolveDataPointsArray
          (JsDataPoints.arr [JsVal.str "a.pdf: some text".toList,
                             JsVal.str "b.pdf: other".toList]) = some xs ∧
        (∃ s0, xs[i]? = some (JsVal.str s0) ∧ jsStartsWith s0 "a.pdf".toList = true) ∧
        ∀ k v, k < i → xs[k]? = some v → dpMatches v "a.pdf".toList = false) ∧
      (parseAnswerToHtml "Fact one [a.pdf]. Fact two [b.pdf].".toList false
        (JsDataPoints.arr [JsVal.str "a.pdf: some text".toList,
                           JsVal.str "b.pdf: other".toList])
        ["urlA".toList, "urlB".toList]).citationUrls[0]? =
        some (["urlA".toList, "urlB".toList][i]?.getD []) :=
  citation_urls_positional.1 "Fact one [a.pdf]. Fact two [b.pdf].".toList false
    (JsDataPoints.arr [JsVal.str "a.pdf: some text".toList,
                       JsVal.str "b.pdf: other".toList])
    ["urlA".toList, "urlB".toList] 0 "a.pdf".toList (by decide)

theorem candValid_false_of {dps : JsDataPoints} {cand : List Char}
    (h : testCitationRegex cand = false ∨ findCitationIndexInDataPoints dps cand = -1) :
    candValid dps cand = false := by
  unfold candValid
  rcases h with h | h
  · simp [h]
  · simp [h]

/-- C5: a bracket-captured candidate that fails the shape regex or has no
matching data-point entry (including when the data-points shape is
unrecognized, where the index is `-1`) is re-emitted literally as
`[candidate]`; no `FoundCitation` is created and the found-citations state is
unchanged by that occurrence. -/
theorem invalid_candidate_literal :
    (∀ (dps : JsDataPoints) (urls : List (List Char)) (found : List FoundCitation)
       (cand : List Char),
       testCitationRegex cand = false ∨ findCitationIndexInDataPoints dps cand = -1 →
       processCandidate dps urls found cand = ('[' :: (cand ++ [']']), found)) ∧
    (∀ (answer : List Char) (isStreaming : Bool) (dps : JsDataPoints)
       (urls : List (List Char)) (i : Nat) (cand : List Char),
       (answerParts answer isStreaming)[i]? = some cand → i % 2 = 1 →
       testCitationRegex cand = false ∨ findCitationIndexInDataPoints dps cand = -1 →
       (answerFragments answer isStreaming dps urls)[i]? =
         some ('[' :: (cand ++ [']']))) := by
  constructor
  · intro dps urls found cand h
    exact processCandidate_invalid urls found (candValid_false_of h)
  · intro answer s dps urls i cand hget hodd h
    exact (processParts_frag dps urls (answerParts answer s) false []
      keys_nil_nodup i cand hget (flagAt_false_of_odd hodd)).2 (candValid_false_of h)

theorem invalid_candidate_literal_witness :
    processCandidate (JsDataPoints.arr [JsVal.str "a.pdf: x".toList]) []
        [] "notfound.pdf".toList = ('[' :: ("notfound.pdf".toList ++ [']']), []) ∧
    (answerFragments "x [notfound.pdf] y".toList false
        (JsDataPoints.arr [JsVal.str "a.pdf: x".toList]) [])[1]? =
      some ('[' :: ("notfound.pdf".toList ++ [']'])) :=
  ⟨invalid_candidate_literal.1 (JsDataPoints.arr [JsVal.str "a.pdf: x".toList]) [] []
     "notfound.pdf".toList (Or.inr (by decide)),
   invalid_candidate_literal.2 "x [notfound.pdf] y".toList false
     (JsDataPoints.arr [JsVal.str "a.pdf: x".toList]) [] 1 "notfound.pdf".toList
     (by decide) (by decide) (Or.inr (by decide))⟩

/-- C6: the parse is a total function returning a complete record for every
input (in this embedding totality holds by construction; the record's two
citation lists always have equal length and the HTML is the concatenation of
the fragments), and a valid citation whose positional URL lookup yields
`undefined` (out-of-range index) is still recorded, with the empty string as
its URL. -/
theorem parse_total_and_missing_url :
    (∀ (answer : List Char) (isStreaming : Bool) (dps : JsDataPoints)
       (urls : List (List Char)),
       (parseAnswerToHtml answer isStreaming dps urls).citations.length =
         (parseAnswerToHtml answer isStreaming dps urls).citationUrls.length ∧
       (parseAnswerToHtml answer isStreaming dps urls).answerHtml =
         joinAll (answerFragments answer isStreaming dps urls)) ∧
    (∀ (dps : JsDataPoints) (urls : List (List Char)) (found : List FoundCitation)
       (cand : List Char) (i : Nat),
       testCitationRegex cand = true →
       findCitationIndexInDataPoints dps cand = Int.ofNat i →
       urls[i]? = none →
       firstKeyIdx found cand = none →
       processCandidate dps urls found cand =
         (renderSup cand (found.length + 1),
          found ++ [{ identifier := cand, url := [] }])) := by
  constructor
  · intro answer s dps urls
    constructor
    · rw [parseAnswerToHtml_eq]
      simp [keys]
    · rfl
  · intro dps urls found cand i ht hfi hurl hk
    have hv : candValid dps cand = true := by
      unfold candValid
      have hne : (findCitationIndexInDataPoints dps cand == -1) = false := by
        rw [hfi]
        rw [beq_eq_false_iff_ne]
        rw [Int.ofNat_eq_natCast]
        omega
      simp [hne, ht]
    rw [processCandidate_new urls hv hk, hfi]
    simp [hurl]

theorem parse_total_and_missing_url_witness :
    ((parseAnswerToHtml "q [a.pdf] r".toList true
        (JsDataPoints.arr [JsVal.str "a.pdf doc".toList]) []).citations.length =
      (parseAnswerToHtml "q [a.pdf] r".toList true
        (JsDataPoints.arr [JsVal.str "a.pdf doc".toList]) []).citationUrls.length) ∧
    processCandidate (JsDataPoints.arr [JsVal.str "a.pdf doc".toList]) [] []
        "a.pdf".toList =
      (renderSup "a.pdf".toList 1,
       [{ identifier := "a.pdf".toList, url := [] }]) :=
  ⟨(parse_total_and_missing_url.1 "q [a.pdf] r".toList true
      (JsDataPoints.arr [JsVal.str "a.pdf doc".toList]) []).1,
   parse_total_and_missing_url.2 (JsDataPoints.arr [JsVal.str "a.pdf doc".toList]) []
     [] "a.pdf".toList 0 (by decide) (by decide) (by decide) (by decide)⟩

/-- C8: an answer containing no bracket characters parses, for any context
and streaming flag, to its whitespace-trimmed self with empty `citations` and
`citationUrls`. -/
theorem no_bracket_answer_identity :
    ∀ (answer : List Char) (isStreaming : Bool) (dps : JsDataPoints)
      (urls : List (List Char)),
      (∀ c ∈ answer, c ≠ '[' ∧ c ≠ ']') →
      parseAnswerToHtml answer isStreaming dps urls =
        { answerHtml := jsTrim answer, citations := [], citationUrls := [] } := by
  intro answer s dps urls h
  have ht : ∀ c ∈ jsTrim answer, c ≠ '[' ∧ c ≠ ']' :=
    fun c hc => h c (mem_of_mem_jsTrim hc)
  have hpre : preprocessAnswer answer s = jsTrim answer := by
    unfold preprocessAnswer
    cases s with
    | false => rfl
    | true => simpa using streamTrunc_no_bracket _ ht
  have hparts : answerParts answer s = [jsTrim answer] := by
    unfold answerParts splitParts
    rw [hpre, splitGo_no_lb _ _ (fun c hc => (ht c hc).1)]
    simp
  rw [parseAnswerToHtml_eq, hparts, processParts_cons_false, processParts_nil]
  simp [joinAll, keys]

theorem no_bracket_answer_identity_witness :
    parseAnswerToHtml "  hello there  ".toList true JsDataPoints.invalid [] =
      { answerHtml := jsTrim "  hello there  ".toList
        citations := []
        citationUrls := [] } :=
  no_bracket_answer_identity "  hello there  ".toList true JsDataPoints.invalid []
    (by decide)

/-- C4: with `isStreaming` true the trimmed answer is scanned from the end
backward - a `]` first leaves the answer unchanged, a `[` first truncates the
answer to exclude that `[` and everything after it, and no bracket leaves it
unchanged; in particular "See [doc1.pdf#p" yields answerHtml "See " with no
citations, for every context. -/
theorem streaming_truncation_cases :
    (∀ (t a b : List Char), t = a ++ ']' :: b → (∀ c ∈ b, c ≠ '[' ∧ c ≠ ']') →
       streamTrunc t = t) ∧
    (∀ (t a b : List Char), t = a ++ '[' :: b → (∀ c ∈ b, c ≠ '[' ∧ c ≠ ']') →
       streamTrunc t = a) ∧
    (∀ t : List Char, (∀ c ∈ t, c ≠ '[' ∧ c ≠ ']') → streamTrunc t = t) ∧
    (∀ (dps : JsDataPoints) (urls : List (List Char)),
       parseAnswerToHtml "See [doc1.pdf#p".toList true dps urls =
         { answerHtml := "See ".toList, citations := [], citationUrls := [] }) := by
  refine ⟨?_, ?_, ?_, ?_⟩
  · intro t a b he hb
    subst he
    exact streamTrunc_after_rb a b hb
  · intro t a b he hb
    subst he
    exact streamTrunc_after_lb a b hb
  · intro t hb
    exact streamTrunc_no_bracket t hb
  · intro dps urls
    have hparts : answerParts "See [doc1.pdf#p".toList true = ["See ".toList] := by decide
    rw [parseAnswerToHtml_eq, hparts, processParts_cons_false, processParts_nil]
    simp [joinAll, keys]

theorem streaming_truncation_cases_witness :
    streamTrunc "ab]cd".toList = "ab]cd".toList ∧
    streamTrunc "ab[cd".toList = "ab".toList ∧
    streamTrunc "abcd".toList = "abcd".toList :=
  ⟨streaming_truncation_cases.1 "ab]cd".toList "ab".toList "cd".toList (by decide)
     (by decide),
   streaming_truncation_cases.2.1 "ab[cd".toList "ab".toList "cd".toList (by decide)
     (by decide),
   streaming_truncation_cases.2.2.1 "abcd".toList (by decide)⟩

/-- C9: candidate matching over a resolved data-points array skips non-string
entries without matching them: when `findIndex` returns a genuine index, the
entry there is a string that starts with the candidate and every earlier
entry (string or not) fails the callback; non-string entries (numbers,
`null`) never satisfy the callback. -/
theorem nonstring_datapoints_skipped :
    (∀ (xs : List JsVal) (cand : List Char) (i : Nat),
       findCitationIndexInDataPoints (JsDataPoints.arr xs) cand = Int.ofNat i →
       (∃ s, xs[i]? = some (JsVal.str s) ∧ jsStartsWith s cand = true) ∧
       ∀ k v, k < i → xs[k]? = some v → dpMatches v cand = false) ∧
    (∀ (n : Int) (cand : List Char), dpMatches (JsVal.num n) cand = false) ∧
    (∀ cand : List Char, dpMatches JsVal.nullv cand = false) := by
  refine ⟨?_, fun n cand => rfl, fun cand => rfl⟩
  intro xs cand i h
  obtain ⟨xs2, hres, hc1, hc2⟩ := fci_char h
  have h2 : resolveDataPointsArray (JsDataPoints.arr xs) = some xs := rfl
  rw [h2] at hres
  have hxs : xs = xs2 := Option.some.inj hres
  subst hxs
  exact ⟨hc1, hc2⟩

theorem nonstring_datapoints_skipped_witness :
    ((∃ s, [JsVal.nullv, JsVal.num 7, JsVal.str "a.pdf: x".toList][2]? =
        some (JsVal.str s) ∧ jsStartsWith s "a.pdf".toList = true) ∧
     ∀ k v, k < 2 → [JsVal.nullv, JsVal.num 7, JsVal.str "a.pdf: x".toList][k]? =
        some v → dpMatches v "a.pdf".toList = false) ∧
    dpMatches (JsVal.num 7) "a.pdf".toList = false :=
  ⟨nonstring_datapoints_skipped.1 [JsVal.nullv, JsVal.num 7, JsVal.str "a.pdf: x".toList]
     "a.pdf".toList 2 (by decide),
   nonstring_datapoints_skipped.2.1 7 "a.pdf".toList⟩

set_option maxRecDepth 8000 in
/-- C10 counterexample: the answer "[a.b#[]" contains the pair `[]`, yet with
a data point starting with "a.b#[" the parse output does not contain `[]`
(the pair's `]` closes a capture whose interior is "a.b#[", which contains the
pair's `[`) and the citations list is not empty - refuting the claim that
`[]` always appears unchanged in `answerHtml` and contributes no entry,
regardless of the context contents. -/
theorem empty_pair_not_preserved_counterexample :
    containsPair "[a.b#[]".toList = true ∧
    containsPair (parseAnswerToHtml "[a.b#[]".toList false
      (JsDataPoints.arr [JsVal.str "a.b#[x".toList]) ["u".toList]).answerHtml = false ∧
    (parseAnswerToHtml "[a.b#[]".toList false
      (JsDataPoints.arr [JsVal.str "a.b#[x".toList]) ["u".toList]).citations =
      ["a.b#[".toList] := by
  refine ⟨by decide, by decide, by decide⟩

/-- C10 amended: the empty pair `[]` is never captured as a citation
candidate - every captured candidate is nonempty and free of `]` - and
(non-streaming) whenever no `[` occurs before the pair in the trimmed answer,
`[]` appears unchanged in `answerHtml` and the citations and citation URLs
are exactly those of the text after the pair; when an unclosed `[` precedes
the pair, its `]` can instead close a capture starting at that `[`. -/
theorem empty_pair_amended :
    (∀ (cs : List Char) (i : Nat) (cand : List Char),
       (splitParts cs)[i]? = some cand → i % 2 = 1 → cand ≠ [] ∧ ']' ∉ cand) ∧
    (∀ (answer : List Char) (dps : JsDataPoints) (urls : List (List Char))
       (a b : List Char),
       jsTrim answer = a ++ '[' :: ']' :: b →
       (∀ c ∈ a, c ≠ '[') →
       (parseAnswerToHtml answer false dps urls).answerHtml =
         a ++ '[' :: ']' :: joinAll (processParts dps urls (splitParts b) false []).1 ∧
       (parseAnswerToHtml answer false dps urls).citations =
         keys (processParts dps urls (splitParts b) false []).2 ∧
       (parseAnswerToHtml answer false dps urls).citationUrls =
         (processParts dps urls (splitParts b) false []).2.map FoundCitation.url) := by
  constructor
  · intro cs i cand hget hodd
    exact splitGo_parts_sound cs none [] (by intro buf hb; cases hb) i cand hget hodd
  · intro answer dps urls a b htrim ha
    have hpre : preprocessAnswer answer false = a ++ '[' :: ']' :: b := by
      unfold preprocessAnswer
      simpa using htrim
    obtain ⟨h, t, e1, e2⟩ := splitGo_acc b none (']' :: '[' :: (a.reverse ++ []))
    have hsplit : splitParts (a ++ '[' :: ']' :: b) = (a ++ '[' :: ']' :: h) :: t := by
      unfold splitParts
      rw [splitGo_skip_pre a [] b ha, e2]
      simp
    have hparts : answerParts answer false = (a ++ '[' :: ']' :: h) :: t := by
      unfold answerParts
      rw [hpre]
      exact hsplit
    have hB : splitParts b = h :: t := e1
    rw [parseAnswerToHtml_eq, hparts, hB]
    rw [processParts_cons_false, processParts_cons_false]
    refine ⟨?_, rfl, rfl⟩
    simp [joinAll]

theorem empty_pair_amended_witness :
    ("ab".toList ≠ [] ∧ ']' ∉ "ab".toList) ∧
    ((parseAnswerToHtml "x[]y".toList false (JsDataPoints.arr []) []).answerHtml =
       "x".toList ++ '[' :: ']' ::
         joinAll (processParts (JsDataPoints.arr []) [] (splitParts "y".toList) false []).1 ∧
     (parseAnswerToHtml "x[]y".toList false (JsDataPoints.arr []) []).citations =
       keys (processParts (JsDataPoints.arr []) [] (splitParts "y".toList) false []).2 ∧
     (parseAnswerToHtml "x[]y".toList false (JsDataPoints.arr []) []).citationUrls =
       (processParts (JsDataPoints.arr []) [] (splitParts "y".toList) false []).2.map
         FoundCitation.url) :=
  ⟨empty_pair_amended.1 "[ab]".toList 1 "ab".toList (by decide) (by decide),
   empty_pair_amended.2 "x[]y".toList (JsDataPoints.arr []) [] "x".toList "y".toList
     (by decide) (by decide)⟩
